import Mathlib

/-!
# Verification of the Image-Stegano LSB codec and steganalysis routines

This file gives a shallow embedding of the bit-level LSB interleaving codec
(`bravo_module.py`, and its duplicate `Image Steganography/Bravo.py`), the
pixel-level message codec (`lemma_module.py`), and the steganalysis routines
(`sierra_module.py`), together with theorems settling the specification
claims about them.

Python byte strings are modelled as `List Nat` (each entry a byte value,
`< 256` where a claim needs it).  The Python code manipulates bits through
binary-format strings (`f'{byte:08b}'`, `int(s, 2)`); those strings are
modelled as MSB-first `List Bool` values, with `natToBitsN` playing the role
of `format(v, f'0{n}b')` and `bitsToNat` the role of `int(s, 2)`.
Fallible functions return `Except String`.
-/

namespace Stegano

/-! ### Bit-string toolkit -/

/-- Python `format(v, f'0{n}b')` for `v < 2^n`: the `n`-character binary string of
`v`, most significant bit first, as a list of booleans. -/
def natToBitsN (n v : Nat) : List Bool :=
  (List.range n).map (fun k => v.testBit (n - 1 - k))

/-- Python `int(s, 2)`: parse an MSB-first bit string, folding left to right. -/
def bitsToNat (l : List Bool) : Nat :=
  l.foldl (fun a b => 2 * a + (bif b then 1 else 0)) 0

/-- Python `''.join(f'{byte:08b}' for byte in payload)`: the payload as a
byte-major, MSB-first bit stream. -/
def bytesToBits (payload : List Nat) : List Bool :=
  payload.flatMap (fun b => natToBitsN 8 b)

/-- Python `bytes(int(bits[i:i+8], 2) for i in range(0, len(bits), 8))`: regroup a
bit string into bytes, the trailing chunk (if shorter than 8 bits) parsed
as a short binary string. -/
def bitsChunksToBytes : List Bool → List Nat
  | [] => []
  | b0 :: b1 :: b2 :: b3 :: b4 :: b5 :: b6 :: b7 :: rest =>
    bitsToNat [b0, b1, b2, b3, b4, b5, b6, b7] :: bitsChunksToBytes rest
  | l => [bitsToNat l]

/-! ### The byte-stream codec of `src/bravo_module.py` -/

namespace Bravo

/-- Embeds `Bravo.validate_inputs` (`src/bravo_module.py:10-19`), for byte-typed
carrier and payload (the `isinstance` checks pass by typing). -/
def validate_inputs (carrier payload : List Nat) (num_lsb byte_depth : Nat) :
    Except String Unit :=
  if num_lsb < 1 ∨ 7 < num_lsb then
    .error "num_lsb must be between 1 and 7."
  else if carrier.length * num_lsb * byte_depth < payload.length * 8 then
    .error "Payload is too large to be hidden in the carrier."
  else .ok ()

/-- The inner `for j in range(num_lsb)` loop of `lsb_interleave_bytes`:
assign `carrier_byte[-1 - j] = chunk[j]` for each consumed payload bit,
on the 8-character binary string of the carrier byte. -/
def setChunkAux : List Bool → List Bool → Nat → List Bool
  | bits8, [], _ => bits8
  | bits8, b :: rest, j => setChunkAux (bits8.set (8 - 1 - j) b) rest (j + 1)

/-- One iteration of the outer loop of `lsb_interleave_bytes`: write the
next (up to `num_lsb`-bit) chunk of the payload bit stream into the byte
`c` and re-parse the edited binary string. -/
def embedUnit (c : Nat) (chunk : List Bool) : Nat :=
  bitsToNat (setChunkAux (natToBitsN 8 c) chunk 0)

/-- The outer `for i in range(len(carrier_bits))` loop of
`lsb_interleave_bytes`: consume `num_lsb` payload bits per carrier byte,
breaking (and leaving the remaining bytes unmodified) once the payload is
exhausted. -/
def interleaveLoop (num_lsb : Nat) : List Nat → List Bool → List Nat
  | [], _ => []
  | c :: cs, bits =>
    if bits.isEmpty then c :: cs
    else embedUnit c (bits.take num_lsb) :: interleaveLoop num_lsb cs (bits.drop num_lsb)

/-- Embeds `Bravo.lsb_interleave_bytes` (`src/bravo_module.py:22-49`).  In
truncate mode the result is cut to
`(len(payload) * 8 + num_lsb - 1) // num_lsb` bytes. -/
def lsb_interleave_bytes (carrier payload : List Nat) (num_lsb : Nat)
    (truncate : Bool) (byte_depth : Nat) : Except String (List Nat) :=
  match validate_inputs carrier payload num_lsb byte_depth with
  | .error e => .error e
  | .ok _ =>
    let payload_bits := bytesToBits payload
    let interleaved := interleaveLoop num_lsb carrier payload_bits
    .ok (if truncate then
          interleaved.take ((payload.length * 8 + num_lsb - 1) / num_lsb)
        else interleaved)

/-- Python `carrier_bits[-1 - j]` where `carrier_bits = f'{byte:08b}'`: character
`8 - 1 - j` of the byte's binary string. -/
def byteStringBit (b j : Nat) : Bool :=
  (natToBitsN 8 b).getD (8 - 1 - j) false

/-- The per-byte extraction of `lsb_deinterleave_bytes`: read characters
`carrier_bits[-1 - j]` for `j in range(num_lsb)`. -/
def extractUnitBits (num_lsb b : Nat) : List Bool :=
  (List.range num_lsb).map (fun j => byteStringBit b j)

/-- Embeds `Bravo.lsb_deinterleave_bytes` (`src/bravo_module.py:52-67`): collect
`num_lsb` bits from every carrier byte, keep the first `num_bits`, and
regroup into bytes.  For byte-typed input the `isinstance` check passes,
so the function never raises. -/
def lsb_deinterleave_bytes (carrier : List Nat) (num_bits num_lsb : Nat) :
    Except String (List Nat) :=
  let bits_extracted := carrier.flatMap (fun b => extractUnitBits num_lsb b)
  .ok (bitsChunksToBytes (bits_extracted.take num_bits))

end Bravo

/-! ### The duplicated codec of `src/Image Steganography/Bravo.py` -/

namespace BravoIS

/-- Embeds `Bravo.validate_inputs` of the duplicated module (no `byte_depth`
parameter; capacity is `len(carrier) * num_lsb`). -/
def validate_inputs (carrier payload : List Nat) (num_lsb : Nat) :
    Except String Unit :=
  if num_lsb < 1 ∨ 7 < num_lsb then
    .error "num_lsb must be between 1 and 7."
  else if carrier.length * num_lsb < payload.length * 8 then
    .error "Payload is too large to be hidden in the carrier."
  else .ok ()

/-- Embeds `Bravo.lsb_interleave_bytes` of `src/Image Steganography/Bravo.py`
(lines 22-52).  The embedding loop is identical to the canonical module;
the truncation length differs: `len(payload) * 8 // num_lsb` (floor
division instead of ceiling division). -/
def lsb_interleave_bytes (carrier payload : List Nat) (num_lsb : Nat)
    (truncate : Bool) : Except String (List Nat) :=
  match validate_inputs carrier payload num_lsb with
  | .error e => .error e
  | .ok _ =>
    let payload_bits := bytesToBits payload
    let interleaved := Bravo.interleaveLoop num_lsb carrier payload_bits
    .ok (if truncate then
          interleaved.take (payload.length * 8 / num_lsb)
        else interleaved)

end BravoIS

/-! ### The pixel codec of `src/lemma_module.py` -/

namespace Lemma

/-- Embeds `Lemma.set_lsbs` (`src/lemma_module.py:190-195`):
`(byte_value & ~mask) | (bit_value & mask)` with `mask = (1 << num_bits) - 1`;
on unbounded non-negative integers, `byte_value & ~mask` clears the low
`num_bits` bits. -/
def set_lsbs (byte_value bit_value num_bits : Nat) : Nat :=
  ((byte_value >>> num_bits) <<< num_bits) ||| (bit_value &&& (2 ^ num_bits - 1))

/-- Embeds `Lemma.extract_lsbs` (`src/lemma_module.py:199-203`):
`byte_value & ((1 << num_bits) - 1)`. -/
def extract_lsbs (byte_value num_bits : Nat) : Nat :=
  byte_value &&& (2 ^ num_bits - 1)

/-- A PIL image as the pixel codec sees it: `image.size = (width, height)`,
`len(image.getbands()) = channels`, and `list(image.getdata())` as a list
of pixels, each a list of `channels` channel samples. -/
structure Img where
  width : Nat
  height : Nat
  channels : Nat
  pixels : List (List Nat)
deriving DecidableEq, Repr

/-- Embeds `Lemma.max_bits_to_hide` (`src/lemma_module.py:35-39`). -/
def max_bits_to_hide (img : Img) (num_lsb : Nat) : Nat :=
  img.width * img.height * img.channels * num_lsb

/-- The `for i in range(num_channels)` loop of `hide_message_in_image`:
per channel, while message bits remain, take the next (up to
`num_lsb`-bit) segment, parse it with `int(segment, 2)`, and write it with
`set_lsbs`; returns the edited pixel and the remaining bits. -/
def hideChannels (num_lsb : Nat) : List Nat → List Bool → List Nat × List Bool
  | [], bits => ([], bits)
  | c :: cs, bits =>
    if bits.isEmpty then (c :: cs, bits)
    else
      let c' := set_lsbs c (bitsToNat (bits.take num_lsb)) num_lsb
      let r := hideChannels num_lsb cs (bits.drop num_lsb)
      (c' :: r.1, r.2)

/-- The `for pixel in pixels` loop of `hide_message_in_image`: process
pixels in order, breaking after the pixel in which the message bits run
out; the remaining pixels are appended unmodified. -/
def hidePixels (num_lsb : Nat) : List (List Nat) → List Bool → List (List Nat)
  | [], _ => []
  | p :: ps, bits =>
    let r := hideChannels num_lsb p bits
    if r.2.isEmpty then r.1 :: ps else r.1 :: hidePixels num_lsb ps r.2

/-- The pixel embedding loop in per-sample form: `hideChannels` inside
`hidePixels` visits channel samples in pixel-major order, which equals
this loop over the flattened sample stream (the equality is proved
below as `hidePixels_flatten`). -/
def flatLoop (num_lsb : Nat) : List Nat → List Bool → List Nat
  | [], _ => []
  | c :: cs, bits =>
    if bits.isEmpty then c :: cs
    else set_lsbs c (bitsToNat (bits.take num_lsb)) num_lsb ::
      flatLoop num_lsb cs (bits.drop num_lsb)

/-- Embeds `Lemma.hide_message_in_image` (`src/lemma_module.py:48-88`): prepend
the 32-bit big-endian message length (`f'{message_length:032b}'`) to the
message bits and embed the stream into the pixels, `num_lsb` bits per
channel sample. -/
def hide_message_in_image (img : Img) (message : List Nat) (num_lsb : Nat)
    (skip_storage_check : Bool) : Except String Img :=
  if !skip_storage_check ∧ max_bits_to_hide img num_lsb < message.length * 8 + 32 then
    .error "The message is too large to hide in the image."
  else
    let message_bits := natToBitsN 32 message.length ++ bytesToBits message
    .ok { img with pixels := hidePixels num_lsb img.pixels message_bits }

/-- The byte-regrouping loop of `recover_message_from_image`: only chunks
of exactly 8 bits are kept (`if len(byte) == 8`). -/
def bitsFullChunksToBytes : List Bool → List Nat
  | b0 :: b1 :: b2 :: b3 :: b4 :: b5 :: b6 :: b7 :: rest =>
    bitsToNat [b0, b1, b2, b3, b4, b5, b6, b7] :: bitsFullChunksToBytes rest
  | _ => []

/-- Embeds `Lemma.recover_message_from_image` (`src/lemma_module.py:108-140`):
read the low `num_lsb` bits of every channel sample of every pixel as an
`num_lsb`-character binary string, parse the first 32 bits as the message
length, and regroup the following `length * 8` bits into bytes. -/
def recover_message_from_image (img : Img) (num_lsb : Nat) : List Nat :=
  let message_bits :=
    img.pixels.flatMap (fun p =>
      p.flatMap (fun c => natToBitsN num_lsb (extract_lsbs c num_lsb)))
  let message_length := bitsToNat (message_bits.take 32)
  let payload_bits := (message_bits.drop 32).take (message_length * 8)
  bitsFullChunksToBytes payload_bits

end Lemma

/-! ### The steganalysis routines of `src/sierra_module.py` -/

namespace Sierra

/-- Python `abs(count - expected)` on integers, as a natural number. -/
def natDist (a b : Nat) : Nat := ((a : Int) - (b : Int)).natAbs

/-- Embeds `Sierra.is_lsb_steganography` (`src/sierra_module.py:14-37`), over the
flattened array of channel samples.  `total_bits = pixels.size * num_lsb`,
`threshold = 0.1 * total_bits`, and the flag fires when the number of
distinct low-bit values differs from `2 ** num_lsb` or some value's count
deviates from `total_bits // 2 ** num_lsb` by more than the threshold
(`10 * deviation > total_bits`, exact arithmetic). -/
def is_lsb_steganography (pixels : List Nat) (num_lsb : Nat) : Bool :=
  let lsb_flat := pixels.map (fun p => p &&& (2 ^ num_lsb - 1))
  let total_bits := pixels.length * num_lsb
  if lsb_flat.dedup.length ≠ 2 ^ num_lsb then true
  else if lsb_flat.dedup.any
      (fun v => total_bits < 10 * natDist (lsb_flat.count v) (total_bits / 2 ^ num_lsb)) then
    true
  else false

/-- Modelled from the spec: the detector condition exactly as claim C5
words it, with the uniform expectation `total_units / 2^num_lsb` and the
threshold `10%` of `total_units`, where `total_units = len(pixels)` is the
number of addressable units (not `total_bits`). -/
def is_lsb_steganography_claim (pixels : List Nat) (num_lsb : Nat) : Bool :=
  let lsb_flat := pixels.map (fun p => p &&& (2 ^ num_lsb - 1))
  let total_units := pixels.length
  if lsb_flat.dedup.length < 2 ^ num_lsb then true
  else if lsb_flat.dedup.any
      (fun v => total_units < 10 * natDist (lsb_flat.count v) (total_units / 2 ^ num_lsb)) then
    true
  else false

/-- Embeds `flipping_mask` inside `Sierra.rs_analysis`: `pixels ^ mask`. -/
def flipping_mask (v mask : Nat) : Nat := v ^^^ mask

/-- Python `pixels[x:x+2, y:y+2]` flattened to its cells: two consecutive rows,
two consecutive columns, all channel samples.  An image is modelled as
rows × columns × channels; a grayscale image has one-sample cells. -/
def blockCells (pixels : List (List (List Nat))) (x y : Nat) : List Nat :=
  ((pixels.drop x).take 2).flatMap (fun row =>
    ((row.drop y).take 2).flatMap (fun cell => cell))

/-- Embeds `calculate_rs` inside `Sierra.rs_analysis` (`src/sierra_module.py:91-99`):
slide a 2×2 window over all positions `x in range(len(pixels)-1)`,
`y in range(len(pixels[0])-1)` (stride 1, overlapping), and accumulate the
element-wise counts `np.sum(block == flipped)` into `regular` and
`np.sum(block != flipped)` into `singular`. -/
def calculate_rs (pixels : List (List (List Nat))) : Nat × Nat :=
  (List.range (pixels.length - 1)).foldl (fun acc x =>
    (List.range ((pixels.headD []).length - 1)).foldl (fun acc2 y =>
      let cells := blockCells pixels x y
      (acc2.1 + cells.countP (fun v => decide (v = flipping_mask v 1)),
       acc2.2 + cells.countP (fun v => decide (v ≠ flipping_mask v 1)))) acc) (0, 0)

/-- Embeds `Sierra.rs_analysis` (`src/sierra_module.py:79-104`): the ratio
`r / (r + s)` (exact division), `0` when `r + s == 0`. -/
def rs_analysis (pixels : List (List (List Nat))) : ℚ :=
  let rs := calculate_rs pixels
  if rs.1 + rs.2 = 0 then 0 else (rs.1 : ℚ) / ((rs.1 : ℚ) + (rs.2 : ℚ))

/-- Modelled from the spec: the number of non-overlapping 2×2 blocks a
carrier partitions into, as claim C6 describes the computation. -/
def numDisjointBlocks (pixels : List (List (List Nat))) : Nat :=
  (pixels.length / 2) * ((pixels.headD []).length / 2)

end Sierra

/-! ## Toolkit lemmas: binary-format strings and their parsing -/

theorem natToBitsN_length (n v : Nat) : (natToBitsN n v).length = n := by
  simp [natToBitsN]

theorem natToBitsN_succ (n v : Nat) :
    natToBitsN (n + 1) v = v.testBit n :: natToBitsN n v := by
  simp only [natToBitsN, List.range_succ_eq_map, List.map_cons, List.map_map, List.cons.injEq]
  refine ⟨by simp, List.map_congr_left ?_⟩
  intro k _
  simp only [Function.comp_apply]
  congr 1
  omega

theorem bitsToNat_go (l : List Bool) (a : Nat) :
    l.foldl (fun a b => 2 * a + (bif b then 1 else 0)) a = a * 2 ^ l.length + bitsToNat l := by
  induction l generalizing a with
  | nil => simp [bitsToNat]
  | cons b t ih =>
    simp only [bitsToNat, List.foldl_cons] at *
    rw [ih, ih (2 * 0 + (bif b then 1 else 0))]
    simp only [List.length_cons, pow_succ]
    cases b <;> simp <;> ring

theorem bitsToNat_cons (b : Bool) (t : List Bool) :
    bitsToNat (b :: t) = (bif b then 1 else 0) * 2 ^ t.length + bitsToNat t := by
  simp only [bitsToNat, List.foldl_cons]
  rw [bitsToNat_go]
  cases b <;> simp [bitsToNat]

theorem bitsToNat_lt (l : List Bool) : bitsToNat l < 2 ^ l.length := by
  induction l with
  | nil => simp [bitsToNat]
  | cons b t ih =>
    have h2 : 0 < 2 ^ t.length := Nat.pos_pow_of_pos _ (by norm_num)
    rw [bitsToNat_cons]
    simp only [List.length_cons, pow_succ]
    cases b <;> simp <;> omega

theorem bitsToNat_natToBitsN (n v : Nat) : bitsToNat (natToBitsN n v) = v % 2 ^ n := by
  induction n with
  | zero => simp [natToBitsN, bitsToNat, Nat.mod_one]
  | succ n ih =>
    rw [natToBitsN_succ, bitsToNat_cons, natToBitsN_length, ih, pow_succ, Nat.mod_mul,
      Nat.testBit_to_div_mod]
    rcases Nat.mod_two_eq_zero_or_one (v / 2 ^ n) with h | h <;> simp [h] <;> ring

theorem natToBitsN_mod (n v : Nat) : natToBitsN n (v % 2 ^ n) = natToBitsN n v := by
  unfold natToBitsN
  apply List.map_congr_left
  intro k hk
  simp only [List.mem_range] at hk
  rw [Nat.testBit_mod_two_pow]
  have h : n - 1 - k < n := by omega
  simp [h]

theorem natToBitsN_bitsToNat (l : List Bool) : natToBitsN l.length (bitsToNat l) = l := by
  induction l with
  | nil => simp [natToBitsN]
  | cons b t ih =>
    have hlt := bitsToNat_lt t
    have hmod : bitsToNat (b :: t) % 2 ^ t.length = bitsToNat t := by
      rw [bitsToNat_cons]
      cases b <;> simp [Nat.add_mod_left, Nat.mod_eq_of_lt hlt]
    have hhead : (bitsToNat (b :: t)).testBit t.length = b := by
      rw [Nat.testBit_to_div_mod, bitsToNat_cons]
      have hdiv : ((bif b then 1 else 0) * 2 ^ t.length + bitsToNat t) / 2 ^ t.length
          = (bif b then 1 else 0) := by
        rw [Nat.add_comm, Nat.mul_comm, Nat.add_mul_div_left _ _ (Nat.pos_pow_of_pos _ (by norm_num)),
          Nat.div_eq_of_lt hlt]
        omega
      rw [hdiv]
      cases b <;> simp
    rw [List.length_cons, natToBitsN_succ, hhead, ← natToBitsN_mod, hmod, ih]

theorem natToBitsN_getD (n v k : Nat) (h : k < n) :
    (natToBitsN n v).getD k false = v.testBit (n - 1 - k) := by
  have hl : k < (natToBitsN n v).length := by rw [natToBitsN_length]; exact h
  rw [List.getD_eq_getElem?_getD, List.getElem?_eq_getElem hl]
  simp [natToBitsN]

theorem bytesToBits_nil : bytesToBits [] = [] := rfl

theorem bytesToBits_cons (b : Nat) (t : List Nat) :
    bytesToBits (b :: t) = natToBitsN 8 b ++ bytesToBits t := by
  simp [bytesToBits]

theorem bytesToBits_length (p : List Nat) : (bytesToBits p).length = p.length * 8 := by
  induction p with
  | nil => rfl
  | cons b t ih => rw [bytesToBits_cons]; simp [ih, natToBitsN_length]; ring

theorem natToBitsN_eight (v : Nat) :
    natToBitsN 8 v = [v.testBit 7, v.testBit 6, v.testBit 5, v.testBit 4,
      v.testBit 3, v.testBit 2, v.testBit 1, v.testBit 0] := rfl

theorem bitsChunksToBytes_cons8 (b0 b1 b2 b3 b4 b5 b6 b7 : Bool) (rest : List Bool) :
    bitsChunksToBytes (b0 :: b1 :: b2 :: b3 :: b4 :: b5 :: b6 :: b7 :: rest) =
      bitsToNat [b0, b1, b2, b3, b4, b5, b6, b7] :: bitsChunksToBytes rest := rfl

theorem Lemma.bitsFullChunksToBytes_cons8 (b0 b1 b2 b3 b4 b5 b6 b7 : Bool) (rest : List Bool) :
    Lemma.bitsFullChunksToBytes (b0 :: b1 :: b2 :: b3 :: b4 :: b5 :: b6 :: b7 :: rest) =
      bitsToNat [b0, b1, b2, b3, b4, b5, b6, b7] :: Lemma.bitsFullChunksToBytes rest := rfl

theorem bitsToNat_eight_testBit (v : Nat) (hv : v < 256) :
    bitsToNat [v.testBit 7, v.testBit 6, v.testBit 5, v.testBit 4,
      v.testBit 3, v.testBit 2, v.testBit 1, v.testBit 0] = v := by
  rw [← natToBitsN_eight, bitsToNat_natToBitsN]
  exact Nat.mod_eq_of_lt (by norm_num at hv ⊢; exact hv)

theorem bitsChunksToBytes_bytesToBits (p : List Nat) (hp : ∀ b ∈ p, b < 256) :
    bitsChunksToBytes (bytesToBits p) = p := by
  induction p with
  | nil => rfl
  | cons b t ih =>
    rw [bytesToBits_cons, natToBitsN_eight, List.cons_append, List.cons_append,
      List.cons_append, List.cons_append, List.cons_append, List.cons_append,
      List.cons_append, List.cons_append, List.nil_append, bitsChunksToBytes_cons8,
      bitsToNat_eight_testBit b (hp b (by simp)), ih (fun x hx => hp x (by simp [hx]))]

theorem Lemma.bitsFullChunksToBytes_bytesToBits (p : List Nat) (hp : ∀ b ∈ p, b < 256) :
    Lemma.bitsFullChunksToBytes (bytesToBits p) = p := by
  induction p with
  | nil => rfl
  | cons b t ih =>
    rw [bytesToBits_cons, natToBitsN_eight, List.cons_append, List.cons_append,
      List.cons_append, List.cons_append, List.cons_append, List.cons_append,
      List.cons_append, List.cons_append, List.nil_append, Lemma.bitsFullChunksToBytes_cons8,
      bitsToNat_eight_testBit b (hp b (by simp)), ih (fun x hx => hp x (by simp [hx]))]

/-! ## Per-unit lemmas for the `Bravo` byte codec -/

theorem setChunkAux_closed (chunk : List Bool) : ∀ (bs : List Bool) (j : Nat),
    bs.length = 8 → j + chunk.length ≤ 8 →
    Bravo.setChunkAux bs chunk j =
      bs.take (8 - j - chunk.length) ++ chunk.reverse ++ bs.drop (8 - j) := by
  induction chunk with
  | nil =>
    intro bs j hlen hle
    simp [Bravo.setChunkAux]
  | cons b rest ih =>
    intro bs j hlen hle
    simp only [List.length_cons] at hle
    show Bravo.setChunkAux (bs.set (8 - 1 - j) b) rest (j + 1) = _
    rw [ih (bs.set (8 - 1 - j) b) (j + 1) (by simp [hlen]) (by omega)]
    have htake : (bs.set (8 - 1 - j) b).take (8 - (j + 1) - rest.length) =
        bs.take (8 - (j + 1) - rest.length) := by
      rw [List.set_take]
      apply List.set_eq_of_length_le
      simp only [List.length_take, hlen]
      omega
    have hdrop : (bs.set (8 - 1 - j) b).drop (8 - (j + 1)) = b :: bs.drop (8 - j) := by
      rw [List.drop_set]
      have h1 : ¬ (8 - 1 - j < 8 - (j + 1)) := by omega
      rw [if_neg h1]
      have hidx : 8 - (j + 1) < bs.length := by omega
      rw [List.drop_eq_getElem_cons hidx]
      have h2 : 8 - 1 - j - (8 - (j + 1)) = 0 := by omega
      have h3 : 8 - (j + 1) + 1 = 8 - j := by omega
      rw [h2, h3, List.set_cons_zero]
    rw [htake, hdrop, List.reverse_cons]
    have h4 : 8 - (j + 1) - rest.length = 8 - j - (rest.length + 1) := by omega
    rw [h4]
    simp [List.append_assoc]

theorem embedUnit_eq (c : Nat) (chunk : List Bool) (hcl : chunk.length ≤ 8) :
    Bravo.embedUnit c chunk =
      bitsToNat ((natToBitsN 8 c).take (8 - chunk.length) ++ chunk.reverse) := by
  unfold Bravo.embedUnit
  rw [setChunkAux_closed chunk (natToBitsN 8 c) 0 (natToBitsN_length _ _) (by omega)]
  have hdrop : (natToBitsN 8 c).drop (8 - 0) = [] := by
    apply List.drop_eq_nil_of_le
    simp [natToBitsN_length]
  rw [hdrop]
  simp

theorem testBit_bitsToNat_eight (l : List Bool) (hl : l.length = 8) (j : Nat) (hj : j < 8) :
    (bitsToNat l).testBit j = l.getD (8 - 1 - j) false := by
  have h := natToBitsN_bitsToNat l
  rw [hl] at h
  conv_rhs => rw [← h]
  rw [natToBitsN_getD 8 _ (8 - 1 - j) (by omega)]
  congr 1
  omega

theorem embedUnit_lt (c : Nat) (chunk : List Bool) (hcl : chunk.length ≤ 8) :
    Bravo.embedUnit c chunk < 256 := by
  rw [embedUnit_eq c chunk hcl]
  have hlen : ((natToBitsN 8 c).take (8 - chunk.length) ++ chunk.reverse).length = 8 := by
    simp [natToBitsN_length]
    omega
  have h := bitsToNat_lt ((natToBitsN 8 c).take (8 - chunk.length) ++ chunk.reverse)
  rw [hlen] at h
  norm_num at h ⊢
  exact h

theorem embedUnit_testBit (c : Nat) (chunk : List Bool) (hcl : chunk.length ≤ 8)
    (j : Nat) (hj : j < 8) :
    (Bravo.embedUnit c chunk).testBit j =
      if j < chunk.length then chunk.getD j false else c.testBit j := by
  have hlen : ((natToBitsN 8 c).take (8 - chunk.length) ++ chunk.reverse).length = 8 := by
    simp [natToBitsN_length]
    omega
  rw [embedUnit_eq c chunk hcl, testBit_bitsToNat_eight _ hlen j hj]
  have hfrontlen : ((natToBitsN 8 c).take (8 - chunk.length)).length = 8 - chunk.length := by
    simp [natToBitsN_length]
  by_cases hcase : j < chunk.length
  · rw [if_pos hcase]
    rw [List.getD_append_right _ _ _ _ (by rw [hfrontlen]; omega)]
    have hidx : 8 - 1 - j - ((natToBitsN 8 c).take (8 - chunk.length)).length =
        chunk.length - 1 - j := by rw [hfrontlen]; omega
    rw [hidx]
    have hrlen : chunk.length - 1 - j < chunk.reverse.length := by
      simp only [List.length_reverse]
      omega
    rw [List.getD_eq_getElem?_getD, List.getElem?_eq_getElem hrlen]
    rw [List.getD_eq_getElem?_getD, List.getElem?_eq_getElem (by omega : j < chunk.length)]
    simp only [Option.getD_some]
    rw [List.getElem_reverse]
    congr 1
    omega
  · rw [if_neg hcase]
    rw [List.getD_append _ _ _ _ (by rw [hfrontlen]; omega)]
    rw [List.getD_eq_getElem?_getD, List.getElem?_take_of_lt (by omega),
      ← List.getD_eq_getElem?_getD]
    rw [natToBitsN_getD 8 c (8 - 1 - j) (by omega)]
    congr 1
    omega

theorem embedUnit_div (c : Nat) (hc : c < 256) (chunk : List Bool) (n : Nat)
    (hn8 : n ≤ 8) (hcl : chunk.length ≤ n) :
    Bravo.embedUnit c chunk / 2 ^ n = c / 2 ^ n := by
  apply Nat.eq_of_testBit_eq
  intro k
  rw [← Nat.shiftRight_eq_div_pow, ← Nat.shiftRight_eq_div_pow,
    Nat.testBit_shiftRight, Nat.testBit_shiftRight]
  by_cases h8 : n + k < 8
  · rw [embedUnit_testBit c chunk (by omega) _ h8, if_neg (by omega)]
  · have h256 : (256 : Nat) ≤ 2 ^ (n + k) := by
      calc (256 : Nat) = 2 ^ 8 := by norm_num
      _ ≤ 2 ^ (n + k) := Nat.pow_le_pow_right (by norm_num) (by omega)
    rw [Nat.testBit_lt_two_pow (lt_of_lt_of_le (embedUnit_lt c chunk (by omega)) h256),
      Nat.testBit_lt_two_pow (lt_of_lt_of_le hc h256)]

theorem byteStringBit_eq (b j : Nat) (hj : j < 8) :
    Bravo.byteStringBit b j = b.testBit j := by
  unfold Bravo.byteStringBit
  rw [natToBitsN_getD 8 b (8 - 1 - j) (by omega)]
  congr 1
  omega

theorem extractUnitBits_length (n b : Nat) : (Bravo.extractUnitBits n b).length = n := by
  simp [Bravo.extractUnitBits]

theorem extractUnitBits_embedUnit_take (n c : Nat) (chunk : List Bool)
    (hn : n ≤ 8) (hcl : chunk.length ≤ n) :
    (Bravo.extractUnitBits n (Bravo.embedUnit c chunk)).take chunk.length = chunk := by
  apply List.ext_getElem
  · simp only [List.length_take, extractUnitBits_length]
    omega
  · intro i h1 h2
    rw [List.getElem_take]
    simp only [Bravo.extractUnitBits, List.getElem_map, List.getElem_range]
    rw [byteStringBit_eq _ _ (by omega), embedUnit_testBit c chunk (by omega) i (by omega),
      if_pos h2, List.getD_eq_getElem?_getD, List.getElem?_eq_getElem h2]
    simp

theorem extractUnitBits_embedUnit_full (n c : Nat) (chunk : List Bool)
    (hn : n ≤ 8) (hcl : chunk.length = n) :
    Bravo.extractUnitBits n (Bravo.embedUnit c chunk) = chunk := by
  have h := extractUnitBits_embedUnit_take n c chunk hn (le_of_eq hcl)
  rwa [hcl, List.take_of_length_le (by rw [extractUnitBits_length])] at h

/-! ## Stream-level lemmas for the `Bravo` byte codec -/

theorem interleaveLoop_nil_bits (n : Nat) (units : List Nat) :
    Bravo.interleaveLoop n units [] = units := by
  cases units <;> simp [Bravo.interleaveLoop]

theorem interleaveLoop_cons (n : Nat) (c : Nat) (cs : List Nat) (b : Bool) (bt : List Bool) :
    Bravo.interleaveLoop n (c :: cs) (b :: bt) =
      Bravo.embedUnit c ((b :: bt).take n) ::
        Bravo.interleaveLoop n cs ((b :: bt).drop n) := by
  simp [Bravo.interleaveLoop]

theorem extractStream_length (n : Nat) (units : List Nat) :
    (units.flatMap (fun b => Bravo.extractUnitBits n b)).length = units.length * n := by
  induction units with
  | nil => simp
  | cons c cs ih =>
    simp [extractUnitBits_length, ih]
    ring

/-- The codec's central symmetry: extracting back the low bits of the
interleaved stream, truncated at the number of embedded bits, returns the
embedded bit stream (including a final partial group). -/
theorem interleave_extract_stream (n : Nat) (hn1 : 1 ≤ n) (hn : n ≤ 8) :
    ∀ (units : List Nat) (bits : List Bool),
      bits.length ≤ units.length * n →
      ((Bravo.interleaveLoop n units bits).flatMap
          (fun b => Bravo.extractUnitBits n b)).take bits.length = bits := by
  intro units
  induction units with
  | nil =>
    intro bits h
    simp only [List.length_nil, Nat.zero_mul, Nat.le_zero] at h
    rw [List.eq_nil_of_length_eq_zero h]
    simp [Bravo.interleaveLoop]
  | cons c cs ih =>
    intro bits h
    cases bits with
    | nil => simp [interleaveLoop_nil_bits]
    | cons b bt =>
      rw [interleaveLoop_cons, List.flatMap_cons]
      by_cases hcase : (b :: bt).length ≤ n
      · rw [List.take_of_length_le hcase, List.drop_eq_nil_of_le hcase,
          interleaveLoop_nil_bits]
        rw [List.take_append_of_le_length
          (by rw [extractUnitBits_length]; exact hcase)]
        exact extractUnitBits_embedUnit_take n c (b :: bt) hn hcase
      · push_neg at hcase
        have hchunk : ((b :: bt).take n).length = n := by
          rw [List.length_take]
          omega
        rw [extractUnitBits_embedUnit_full n c _ hn hchunk]
        have hsplit : (b :: bt).length = ((b :: bt).take n).length + ((b :: bt).length - n) := by
          omega
        rw [hsplit, hchunk]
        have happ := @List.take_append Bool ((b :: bt).take n)
          ((Bravo.interleaveLoop n cs ((b :: bt).drop n)).flatMap
            (fun b => Bravo.extractUnitBits n b)) ((b :: bt).length - n)
        rw [hchunk] at happ
        rw [happ]
        have hdroplen : ((b :: bt).drop n).length = (b :: bt).length - n := by
          simp
        have hrec : ((Bravo.interleaveLoop n cs ((b :: bt).drop n)).flatMap
            (fun b => Bravo.extractUnitBits n b)).take ((b :: bt).drop n).length
            = (b :: bt).drop n := by
          apply ih
          rw [hdroplen]
          have hmul : (cs.length + 1) * n = cs.length * n + n := by ring
          simp only [List.length_cons] at h ⊢
          omega
        rw [hdroplen] at hrec
        rw [hrec, List.take_append_drop]

/-- When validation passes, `lsb_interleave_bytes` (no truncation,
`byte_depth = 1`) returns the interleaving loop's output. -/
theorem interleave_ok (carrier payload : List Nat) (n : Nat)
    (h1 : 1 ≤ n) (h7 : n ≤ 7) (hcap : payload.length * 8 ≤ carrier.length * n) :
    Bravo.lsb_interleave_bytes carrier payload n false 1 =
      Except.ok (Bravo.interleaveLoop n carrier (bytesToBits payload)) := by
  unfold Bravo.lsb_interleave_bytes Bravo.validate_inputs
  have hv : ¬ (n < 1 ∨ 7 < n) := by omega
  rw [if_neg hv, if_neg (by rw [Nat.mul_one]; omega)]
  simp

/-- When validation passes, `lsb_interleave_bytes` in truncate mode
returns the loop's output cut to `ceil(payload_bits / num_lsb)` bytes. -/
theorem interleave_ok_trunc (carrier payload : List Nat) (n : Nat)
    (h1 : 1 ≤ n) (h7 : n ≤ 7) (hcap : payload.length * 8 ≤ carrier.length * n) :
    Bravo.lsb_interleave_bytes carrier payload n true 1 =
      Except.ok ((Bravo.interleaveLoop n carrier (bytesToBits payload)).take
        ((payload.length * 8 + n - 1) / n)) := by
  unfold Bravo.lsb_interleave_bytes Bravo.validate_inputs
  have hv : ¬ (n < 1 ∨ 7 < n) := by omega
  rw [if_neg hv, if_neg (by rw [Nat.mul_one]; omega)]
  simp

theorem interleaveLoop_length (n : Nat) : ∀ (units : List Nat) (bits : List Bool),
    (Bravo.interleaveLoop n units bits).length = units.length := by
  intro units
  induction units with
  | nil => intro bits; simp [Bravo.interleaveLoop]
  | cons c cs ih =>
    intro bits
    cases bits with
    | nil => simp [interleaveLoop_nil_bits]
    | cons b bt => rw [interleaveLoop_cons]; simp [ih]

/-- Bytes past the last consumed payload bit are returned unchanged. -/
theorem interleaveLoop_getD_high (n : Nat) : ∀ (units : List Nat) (bits : List Bool) (i : Nat),
    bits.length ≤ n * i →
    (Bravo.interleaveLoop n units bits).getD i 0 = units.getD i 0 := by
  intro units
  induction units with
  | nil => intro bits i _; simp [Bravo.interleaveLoop]
  | cons c cs ih =>
    intro bits i h
    cases bits with
    | nil => rw [interleaveLoop_nil_bits]
    | cons b bt =>
      cases i with
      | zero => simp at h
      | succ i' =>
        rw [interleaveLoop_cons]
        show (Bravo.interleaveLoop n cs ((b :: bt).drop n)).getD i' 0 = (c :: cs).getD (i' + 1) 0
        rw [ih ((b :: bt).drop n) i' (by
          simp only [List.length_drop, List.length_cons]
          have hmul : n * (i' + 1) = n * i' + n := by ring
          simp only [List.length_cons] at h
          omega)]
        rfl

/-- Each byte of the interleaved output differs from the carrier byte at
the same index only in its low `num_lsb` bits. -/
theorem interleaveLoop_getD_div (n : Nat) (hn8 : n ≤ 8) :
    ∀ (units : List Nat) (bits : List Bool) (i : Nat), (∀ b ∈ units, b < 256) →
      (Bravo.interleaveLoop n units bits).getD i 0 / 2 ^ n = units.getD i 0 / 2 ^ n := by
  intro units
  induction units with
  | nil => intro bits i _; simp [Bravo.interleaveLoop]
  | cons c cs ih =>
    intro bits i hmem
    cases bits with
    | nil => rw [interleaveLoop_nil_bits]
    | cons b bt =>
      rw [interleaveLoop_cons]
      cases i with
      | zero =>
        show Bravo.embedUnit c ((b :: bt).take n) / 2 ^ n = c / 2 ^ n
        exact embedUnit_div c (hmem c (by simp)) _ n hn8 (by simp [List.length_take])
      | succ i' =>
        show (Bravo.interleaveLoop n cs ((b :: bt).drop n)).getD i' 0 / 2 ^ n =
          (c :: cs).getD (i' + 1) 0 / 2 ^ n
        rw [ih ((b :: bt).drop n) i' (fun x hx => hmem x (by simp [hx]))]
        rfl

/-- A prefix of the carrier contributes exactly the corresponding prefix
of the extracted bit stream. -/
theorem extractStream_take (n : Nat) : ∀ (units : List Nat) (k : Nat),
    (units.take k).flatMap (fun b => Bravo.extractUnitBits n b) =
      (units.flatMap (fun b => Bravo.extractUnitBits n b)).take (k * n) := by
  intro units
  induction units with
  | nil => intro k; simp
  | cons c cs ih =>
    intro k
    cases k with
    | zero => simp
    | succ k' =>
      rw [List.take_cons_succ, List.flatMap_cons, List.flatMap_cons, ih k']
      have hkn : (k' + 1) * n = (Bravo.extractUnitBits n c).length + k' * n := by
        rw [extractUnitBits_length]
        ring
      rw [hkn, List.take_append]

/-- Shows `a ≤ n * ceil(a / n)` for the ceiling division `(a + n - 1) / n`. -/
theorem le_mul_ceilDiv (a n : Nat) (hn : 1 ≤ n) : a ≤ n * ((a + n - 1) / n) := by
  rcases Nat.eq_zero_or_pos a with ha | ha
  · simp [ha]
  · have h := Nat.div_add_mod (a + n - 1) n
    have hlt := Nat.mod_lt (a + n - 1) (show 0 < n by omega)
    omega

/-! ## Claims C1, C2, C4 -/

/-- C1: for every byte carrier, every `num_lsb ∈ [1,7]`, and every payload
with `len(payload) * 8 ≤ len(carrier) * num_lsb`, deinterleaving the
interleaved carrier with the exact bit count recovers the payload —
including when `len(payload) * 8` is not a multiple of `num_lsb` (the
final group of written bits is partial). -/
theorem c1_bravo_roundtrip (carrier payload : List Nat) (num_lsb : Nat)
    (h1 : 1 ≤ num_lsb) (h7 : num_lsb ≤ 7)
    (hcar : ∀ b ∈ carrier, b < 256) (hpay : ∀ b ∈ payload, b < 256)
    (hcap : payload.length * 8 ≤ carrier.length * num_lsb) :
    (Bravo.lsb_interleave_bytes carrier payload num_lsb false 1).bind
      (fun out => Bravo.lsb_deinterleave_bytes out (payload.length * 8) num_lsb) =
      Except.ok payload := by
  rw [interleave_ok carrier payload num_lsb h1 h7 hcap]
  show Bravo.lsb_deinterleave_bytes _ (payload.length * 8) num_lsb = Except.ok payload
  unfold Bravo.lsb_deinterleave_bytes
  dsimp only
  have hlen : payload.length * 8 = (bytesToBits payload).length :=
    (bytesToBits_length payload).symm
  rw [hlen, interleave_extract_stream num_lsb h1 (by omega) carrier (bytesToBits payload)
    (by rw [← hlen]; exact hcap), bitsChunksToBytes_bytesToBits payload hpay]

/-- Witness for C1 at the spec's concrete scenario: 16 bytes of `0xFF`,
payload `0xDE`, `num_lsb = 2`. -/
theorem c1_bravo_roundtrip_witness :
    ((1 ≤ 2 ∧ 2 ≤ 7) ∧ (∀ b ∈ List.replicate 16 (255 : Nat), b < 256) ∧
      (∀ b ∈ [(222 : Nat)], b < 256) ∧
      List.length [(222 : Nat)] * 8 ≤ (List.replicate 16 (255 : Nat)).length * 2) ∧
    (Bravo.lsb_interleave_bytes (List.replicate 16 255) [222] 2 false 1).bind
      (fun out => Bravo.lsb_deinterleave_bytes out (List.length [(222 : Nat)] * 8) 2) =
      Except.ok [222] := by
  refine ⟨⟨⟨by norm_num, by norm_num⟩, ?_, ?_, by simp⟩, ?_⟩
  · intro b hb
    rw [List.eq_of_mem_replicate hb]
    norm_num
  · intro b hb
    simp at hb
    omega
  · exact c1_bravo_roundtrip (List.replicate 16 255) [222] 2 (by norm_num) (by norm_num)
      (fun b hb => by rw [List.eq_of_mem_replicate hb]; norm_num)
      (fun b hb => by simp at hb; omega) (by simp)

/-- C2: with `byte_depth = 1` and byte-typed inputs,
`Bravo.lsb_interleave_bytes` raises exactly when `num_lsb ∉ [1,7]` or
`len(payload) * 8 > len(carrier) * num_lsb`; in particular a payload
using exactly the capacity embeds successfully (no error is produced),
and validation runs before any embedding. -/
theorem c2_bravo_error_iff (carrier payload : List Nat) (num_lsb : Nat) :
    (∃ e, Bravo.lsb_interleave_bytes carrier payload num_lsb false 1 = Except.error e) ↔
      (num_lsb < 1 ∨ 7 < num_lsb ∨ carrier.length * num_lsb < payload.length * 8) := by
  unfold Bravo.lsb_interleave_bytes Bravo.validate_inputs
  by_cases h1 : num_lsb < 1 ∨ 7 < num_lsb
  · rw [if_pos h1]
    simp only [Except.error.injEq, exists_eq']
    tauto
  · rw [if_neg h1]
    by_cases h2 : carrier.length * num_lsb * 1 < payload.length * 8
    · rw [if_pos h2]
      rw [Nat.mul_one] at h2
      simp only [Except.error.injEq, exists_eq']
      tauto
    · rw [if_neg h2]
      rw [Nat.mul_one] at h2
      simp only [reduceCtorEq, exists_false, false_iff]
      push_neg at h1 ⊢
      omega

/-- C4 counterexample: requesting more bits than the carrier holds does
not raise; `lsb_deinterleave_bytes` returns a (short) payload built from
the available bits.  Carrier `[0]` holds `1 * 1 = 1` LSB bit, yet a
16-bit request succeeds and returns the payload `[0]`. -/
theorem c4_counterexample :
    List.length [(0 : Nat)] * 1 < 16 ∧
    Bravo.lsb_deinterleave_bytes [0] 16 1 = Except.ok [0] := by
  exact ⟨by norm_num, rfl⟩

/-- C4 amended: when `num_bits` exceeds `len(carrier) * num_lsb`,
`Bravo.lsb_deinterleave_bytes` does not fail — the slice
`bits_extracted[:num_bits]` silently truncates to the available
`len(carrier) * num_lsb` bits, so the call behaves exactly like a request
for all available bits and returns a payload shorter than requested. -/
theorem c4_amended (carrier : List Nat) (num_bits num_lsb : Nat)
    (h : carrier.length * num_lsb ≤ num_bits) :
    Bravo.lsb_deinterleave_bytes carrier num_bits num_lsb =
      Bravo.lsb_deinterleave_bytes carrier (carrier.length * num_lsb) num_lsb := by
  unfold Bravo.lsb_deinterleave_bytes
  dsimp only
  rw [List.take_of_length_le (by rw [extractStream_length]; exact h),
    List.take_of_length_le (by rw [extractStream_length])]

/-- Witness for C4 amended: a 2-byte carrier read with a 99-bit request
behaves like the 4-bit request for all available bits. -/
theorem c4_amended_witness :
    List.length [(5 : Nat), 6] * 2 ≤ 99 ∧
    Bravo.lsb_deinterleave_bytes [5, 6] 99 2 =
      Bravo.lsb_deinterleave_bytes [5, 6] (List.length [(5 : Nat), 6] * 2) 2 :=
  ⟨by norm_num, c4_amended [5, 6] 99 2 (by norm_num)⟩

/-! ## Claim C9: frame effect of embedding -/

/-- C9: embedding with `truncate = False` never changes the byte count;
bytes at index `≥ ceil(len(payload) * 8 / num_lsb)` are returned
unchanged; every byte differs from the original only in its low
`num_lsb` bits; and the empty payload returns the carrier byte-for-byte
unchanged. -/
theorem c9_bravo_frame_effect (carrier payload : List Nat) (num_lsb : Nat)
    (h1 : 1 ≤ num_lsb) (h7 : num_lsb ≤ 7)
    (hcar : ∀ b ∈ carrier, b < 256)
    (hcap : payload.length * 8 ≤ carrier.length * num_lsb) :
    ∃ out, Bravo.lsb_interleave_bytes carrier payload num_lsb false 1 = Except.ok out ∧
      out.length = carrier.length ∧
      (∀ i, (payload.length * 8 + num_lsb - 1) / num_lsb ≤ i →
        out.getD i 0 = carrier.getD i 0) ∧
      (∀ i, out.getD i 0 / 2 ^ num_lsb = carrier.getD i 0 / 2 ^ num_lsb) ∧
      (payload = [] → out = carrier) := by
  refine ⟨Bravo.interleaveLoop num_lsb carrier (bytesToBits payload),
    interleave_ok carrier payload num_lsb h1 h7 hcap,
    interleaveLoop_length num_lsb carrier _, ?_, ?_, ?_⟩
  · intro i hi
    apply interleaveLoop_getD_high
    rw [bytesToBits_length]
    calc payload.length * 8
        ≤ num_lsb * ((payload.length * 8 + num_lsb - 1) / num_lsb) :=
          le_mul_ceilDiv _ _ h1
      _ ≤ num_lsb * i := Nat.mul_le_mul_left _ hi
  · intro i
    exact interleaveLoop_getD_div num_lsb (by omega) carrier _ i hcar
  · intro hp
    rw [hp]
    show Bravo.interleaveLoop num_lsb carrier (bytesToBits []) = carrier
    rw [bytesToBits_nil, interleaveLoop_nil_bits]

/-- Witness for C9 on the carrier `[255, 7]` with payload `[170]` and
`num_lsb = 7`. -/
theorem c9_bravo_frame_effect_witness :
    ((1 ≤ 7 ∧ 7 ≤ 7) ∧ (∀ b ∈ [(255 : Nat), 7], b < 256) ∧
      List.length [(170 : Nat)] * 8 ≤ List.length [(255 : Nat), 7] * 7) ∧
    (∃ out, Bravo.lsb_interleave_bytes [255, 7] [170] 7 false 1 = Except.ok out ∧
      out.length = List.length [(255 : Nat), 7] ∧
      (∀ i, (List.length [(170 : Nat)] * 8 + 7 - 1) / 7 ≤ i →
        out.getD i 0 = List.getD [255, 7] i 0) ∧
      (∀ i, out.getD i 0 / 2 ^ 7 = List.getD [255, 7] i 0 / 2 ^ 7) ∧
      ([(170 : Nat)] = [] → out = [255, 7])) := by
  refine ⟨⟨⟨by norm_num, by norm_num⟩, ?_, by norm_num⟩, ?_⟩
  · intro b hb
    simp at hb
    omega
  · exact c9_bravo_frame_effect [255, 7] [170] 7 (by norm_num) (by norm_num)
      (fun b hb => by simp at hb; omega) (by norm_num)

/-! ## Claim C8: bit orientation within a unit -/

/-- C8 counterexample: embedding the single chunk `'10'` (payload byte
`0x80`, `num_lsb = 2`) into the zero byte yields `1` — the chunk's most
significant bit lands in the *lowest* target position (bit 0) — whereas
the claim's mask-and-OR orientation (`Lemma.set_lsbs`, most significant
bit of the chunk into the highest target position) would yield `2`. -/
theorem c8_counterexample :
    Bravo.lsb_interleave_bytes [0, 0, 0, 0] [128] 2 false 1 = Except.ok [1, 0, 0, 0] ∧
    Lemma.set_lsbs 0 (bitsToNat [true, false]) 2 = 2 ∧ (1 : Nat) ≠ 2 :=
  ⟨rfl, rfl, by norm_num⟩

theorem set_lsbs_testBit_low (c v n j : Nat) (hj : j < n) :
    (Lemma.set_lsbs c v n).testBit j = v.testBit j := by
  unfold Lemma.set_lsbs
  rw [Nat.testBit_or, Nat.testBit_shiftLeft, Nat.testBit_and, Nat.testBit_two_pow_sub_one]
  have h1 : ¬ (n ≤ j) := by omega
  simp [h1, hj]

theorem set_lsbs_testBit_high (c v n j : Nat) (hj : n ≤ j) :
    (Lemma.set_lsbs c v n).testBit j = c.testBit j := by
  unfold Lemma.set_lsbs
  rw [Nat.testBit_or, Nat.testBit_shiftLeft, Nat.testBit_and, Nat.testBit_two_pow_sub_one,
    Nat.testBit_shiftRight]
  have h1 : ¬ (j < n) := by omega
  have h2 : n + (j - n) = j := by omega
  simp [hj, h1, h2]

theorem set_lsbs_mod (c v n : Nat) :
    Lemma.set_lsbs c v n % 2 ^ n = v % 2 ^ n := by
  apply Nat.eq_of_testBit_eq
  intro k
  rw [Nat.testBit_mod_two_pow, Nat.testBit_mod_two_pow]
  by_cases hk : k < n
  · simp only [hk, decide_True, Bool.true_and]
    exact set_lsbs_testBit_low c v n k hk
  · simp [hk]

theorem set_lsbs_div (c v n : Nat) :
    Lemma.set_lsbs c v n / 2 ^ n = c / 2 ^ n := by
  apply Nat.eq_of_testBit_eq
  intro k
  rw [← Nat.shiftRight_eq_div_pow, ← Nat.shiftRight_eq_div_pow,
    Nat.testBit_shiftRight, Nat.testBit_shiftRight]
  exact set_lsbs_testBit_high c v n (n + k) (by omega)

theorem extract_lsbs_eq_mod (b n : Nat) : Lemma.extract_lsbs b n = b % 2 ^ n :=
  Nat.and_pow_two_sub_one_eq_mod b n

/-- C8 amended: the two embedders orient chunks differently.  In the
`Lemma` pixel path the MSB-first chunk is parsed as a number and written
by mask-and-OR, so the chunk's most significant bit lands in the highest
of the `num_lsb` target positions; in `Bravo.lsb_interleave_bytes` the
chunk's bits are written in reverse order — bit `j` of the MSB-first
chunk lands in bit position `j`, so the chunk's most significant bit
lands in the *lowest* target position. -/
theorem c8_amended (c : Nat) (chunk : List Bool) (n : Nat)
    (hn : n ≤ 7) (hcl : chunk.length = n) :
    (∀ j, j < n → (Bravo.embedUnit c chunk).testBit j = chunk.getD j false) ∧
    (∀ j, j < n → (Lemma.set_lsbs c (bitsToNat chunk) n).testBit j =
      chunk.getD (n - 1 - j) false) := by
  constructor
  · intro j hj
    rw [embedUnit_testBit c chunk (by omega) j (by omega), if_pos (by omega)]
  · intro j hj
    rw [set_lsbs_testBit_low c _ n j hj]
    have h := natToBitsN_bitsToNat chunk
    rw [hcl] at h
    conv_rhs => rw [← h]
    rw [natToBitsN_getD n _ (n - 1 - j) (by omega)]
    congr 1
    omega

/-- Witness for C8 amended at `c = 255`, chunk `'10'`, `num_lsb = 2`. -/
theorem c8_amended_witness :
    (2 ≤ 7 ∧ List.length [true, false] = 2) ∧
    ((∀ j, j < 2 → (Bravo.embedUnit 255 [true, false]).testBit j =
        List.getD [true, false] j false) ∧
      (∀ j, j < 2 → (Lemma.set_lsbs 255 (bitsToNat [true, false]) 2).testBit j =
        List.getD [true, false] (2 - 1 - j) false)) :=
  ⟨⟨by norm_num, rfl⟩, c8_amended 255 [true, false] 2 (by norm_num) rfl⟩

/-! ## Claim C10: truncate mode -/

/-- C10 counterexample: the duplicated module
(`src/Image Steganography/Bravo.py`) truncates with floor division.
For a 1-byte payload at `num_lsb = 3` it returns 2 bytes instead of
`ceil(8/3) = 3`, and the written payload is no longer recoverable from
the truncated output (extraction returns `[63]`, not `[255]`). -/
theorem c10_counterexample :
    BravoIS.lsb_interleave_bytes [0, 0, 0, 0] [255] 3 true = Except.ok [7, 7] ∧
    List.length [(7 : Nat), 7] ≠ (List.length [(255 : Nat)] * 8 + 3 - 1) / 3 ∧
    Bravo.lsb_deinterleave_bytes [7, 7] 8 3 = Except.ok [63] ∧ (63 : Nat) ≠ 255 :=
  ⟨rfl, by norm_num, rfl, by norm_num⟩

/-- C10 amended: the canonical `bravo_module` version does truncate to
exactly the first `ceil(len(payload) * 8 / num_lsb)` bytes of the
interleaved result, and all written payload bits remain recoverable from
the truncated output; the duplicated `Image Steganography/Bravo.py`
version instead truncates to `len(payload) * 8 // num_lsb` bytes (floor),
which drops written bits whenever `num_lsb` does not divide
`len(payload) * 8`. -/
theorem c10_amended (carrier payload : List Nat) (num_lsb : Nat)
    (h1 : 1 ≤ num_lsb) (h7 : num_lsb ≤ 7) (hpay : ∀ b ∈ payload, b < 256)
    (hcap : payload.length * 8 ≤ carrier.length * num_lsb) :
    ∃ full, Bravo.lsb_interleave_bytes carrier payload num_lsb false 1 = Except.ok full ∧
      Bravo.lsb_interleave_bytes carrier payload num_lsb true 1 =
        Except.ok (full.take ((payload.length * 8 + num_lsb - 1) / num_lsb)) ∧
      Bravo.lsb_deinterleave_bytes
        (full.take ((payload.length * 8 + num_lsb - 1) / num_lsb))
        (payload.length * 8) num_lsb = Except.ok payload := by
  refine ⟨Bravo.interleaveLoop num_lsb carrier (bytesToBits payload),
    interleave_ok carrier payload num_lsb h1 h7 hcap,
    interleave_ok_trunc carrier payload num_lsb h1 h7 hcap, ?_⟩
  unfold Bravo.lsb_deinterleave_bytes
  dsimp only
  rw [extractStream_take num_lsb _ ((payload.length * 8 + num_lsb - 1) / num_lsb),
    List.take_take]
  have hmin : min (payload.length * 8)
      ((payload.length * 8 + num_lsb - 1) / num_lsb * num_lsb) = payload.length * 8 := by
    have h := le_mul_ceilDiv (payload.length * 8) num_lsb h1
    have hcomm : (payload.length * 8 + num_lsb - 1) / num_lsb * num_lsb =
      num_lsb * ((payload.length * 8 + num_lsb - 1) / num_lsb) := by ring
    omega
  rw [hmin]
  have hlen : payload.length * 8 = (bytesToBits payload).length :=
    (bytesToBits_length payload).symm
  rw [hlen, interleave_extract_stream num_lsb h1 (by omega) carrier (bytesToBits payload)
    (by rw [← hlen]; exact hcap), bitsChunksToBytes_bytesToBits payload hpay]

/-- Witness for C10 amended: the same 1-byte payload at `num_lsb = 3`
that broke the duplicated module round-trips through the canonical
module's ceiling-truncated output (3 bytes). -/
theorem c10_amended_witness :
    ((1 ≤ 3 ∧ 3 ≤ 7) ∧ (∀ b ∈ [(255 : Nat)], b < 256) ∧
      List.length [(255 : Nat)] * 8 ≤ List.length [(0 : Nat), 0, 0, 0] * 3) ∧
    (∃ full, Bravo.lsb_interleave_bytes [0, 0, 0, 0] [255] 3 false 1 = Except.ok full ∧
      Bravo.lsb_interleave_bytes [0, 0, 0, 0] [255] 3 true 1 =
        Except.ok (full.take ((List.length [(255 : Nat)] * 8 + 3 - 1) / 3)) ∧
      Bravo.lsb_deinterleave_bytes (full.take ((List.length [(255 : Nat)] * 8 + 3 - 1) / 3))
        (List.length [(255 : Nat)] * 8) 3 = Except.ok [255]) := by
  refine ⟨⟨⟨by norm_num, by norm_num⟩, ?_, by norm_num⟩, ?_⟩
  · intro b hb
    simp at hb
    omega
  · exact c10_amended [0, 0, 0, 0] [255] 3 (by norm_num) (by norm_num)
      (fun b hb => by simp at hb; omega) (by norm_num)

/-! ## Flattening the pixel codec of the `Lemma` module -/

theorem flatLoop_nil_bits (n : Nat) (units : List Nat) :
    Lemma.flatLoop n units [] = units := by
  cases units <;> simp [Lemma.flatLoop]

theorem flatLoop_cons (n : Nat) (c : Nat) (cs : List Nat) (b : Bool) (bt : List Bool) :
    Lemma.flatLoop n (c :: cs) (b :: bt) =
      Lemma.set_lsbs c (bitsToNat ((b :: bt).take n)) n ::
        Lemma.flatLoop n cs ((b :: bt).drop n) := by
  simp [Lemma.flatLoop]

theorem hideChannels_cons (n c : Nat) (cs : List Nat) (b : Bool) (bt : List Bool) :
    Lemma.hideChannels n (c :: cs) (b :: bt) =
      (Lemma.set_lsbs c (bitsToNat ((b :: bt).take n)) n ::
        (Lemma.hideChannels n cs ((b :: bt).drop n)).1,
       (Lemma.hideChannels n cs ((b :: bt).drop n)).2) := by
  simp [Lemma.hideChannels]

/-- The channel loop of one pixel, followed by the flat loop on later
samples with the leftover bits, equals the flat loop on the combined
sample stream. -/
theorem hideChannels_flat (n : Nat) (p : List Nat) : ∀ (bits : List Bool) (cs : List Nat),
    (Lemma.hideChannels n p bits).1 ++
        Lemma.flatLoop n cs (Lemma.hideChannels n p bits).2 =
      Lemma.flatLoop n (p ++ cs) bits := by
  induction p with
  | nil => intro bits cs; simp [Lemma.hideChannels]
  | cons c cr ih =>
    intro bits cs
    cases bits with
    | nil => simp [Lemma.hideChannels, flatLoop_nil_bits]
    | cons b bt =>
      rw [hideChannels_cons, List.cons_append, List.cons_append, flatLoop_cons]
      show Lemma.set_lsbs c (bitsToNat ((b :: bt).take n)) n ::
          ((Lemma.hideChannels n cr ((b :: bt).drop n)).1 ++
            Lemma.flatLoop n cs (Lemma.hideChannels n cr ((b :: bt).drop n)).2) = _
      rw [ih ((b :: bt).drop n) cs]

/-- The pixel loop of `hide_message_in_image`, flattened to channel
samples, is the flat per-sample loop. -/
theorem hidePixels_flatten (n : Nat) : ∀ (ps : List (List Nat)) (bits : List Bool),
    (Lemma.hidePixels n ps bits).flatten = Lemma.flatLoop n ps.flatten bits := by
  intro ps
  induction ps with
  | nil => intro bits; simp [Lemma.hidePixels, Lemma.flatLoop]
  | cons p pr ih =>
    intro bits
    show (if (Lemma.hideChannels n p bits).2.isEmpty then
        (Lemma.hideChannels n p bits).1 :: pr
      else (Lemma.hideChannels n p bits).1 ::
        Lemma.hidePixels n pr (Lemma.hideChannels n p bits).2).flatten = _
    by_cases hre : (Lemma.hideChannels n p bits).2.isEmpty
    · rw [if_pos hre, List.flatten_cons, List.flatten_cons]
      have h2 : (Lemma.hideChannels n p bits).2 = [] := List.isEmpty_iff.mp hre
      rw [← hideChannels_flat n p bits pr.flatten, h2, flatLoop_nil_bits]
    · rw [if_neg hre, List.flatten_cons, ih (Lemma.hideChannels n p bits).2,
        List.flatten_cons, ← hideChannels_flat n p bits pr.flatten]

theorem flatMap_length_const {α β : Type} (l : List α) (f : α → List β) (c : Nat)
    (h : ∀ x ∈ l, (f x).length = c) : (l.flatMap f).length = l.length * c := by
  induction l with
  | nil => simp
  | cons x t ih =>
    simp only [List.flatMap_cons, List.length_append, List.length_cons]
    rw [h x (by simp), ih (fun y hy => h y (by simp [hy]))]
    ring

theorem flatten_length_const (ps : List (List Nat)) (c : Nat)
    (h : ∀ p ∈ ps, p.length = c) : ps.flatten.length = ps.length * c := by
  induction ps with
  | nil => simp
  | cons p pr ih =>
    simp only [List.flatten_cons, List.length_append, List.length_cons]
    rw [h p (by simp), ih (fun q hq => h q (by simp [hq]))]
    ring

theorem flatMap_inner (ps : List (List Nat)) (g : Nat → List Bool) :
    ps.flatMap (fun p => p.flatMap g) = ps.flatten.flatMap g := by
  induction ps with
  | nil => simp
  | cons p pr ih => simp [List.flatMap_append, ih]

/-- The `Lemma` codec's stream symmetry, for bit streams whose length is
a multiple of `num_lsb` (every written group is full). -/
theorem flatLoop_extract_stream (n : Nat) (hn1 : 1 ≤ n) :
    ∀ (units : List Nat) (bits : List Bool),
      bits.length ≤ units.length * n → n ∣ bits.length →
      ((Lemma.flatLoop n units bits).flatMap
          (fun c => natToBitsN n (Lemma.extract_lsbs c n))).take bits.length = bits := by
  intro units
  induction units with
  | nil =>
    intro bits h _
    simp only [List.length_nil, Nat.zero_mul, Nat.le_zero] at h
    rw [List.eq_nil_of_length_eq_zero h]
    simp [Lemma.flatLoop]
  | cons c cs ih =>
    intro bits h hdvd
    cases bits with
    | nil => simp [flatLoop_nil_bits]
    | cons b bt =>
      have hlenpos : 0 < (b :: bt).length := by simp
      have hge : n ≤ (b :: bt).length := by
        rcases hdvd with ⟨k, hk⟩
        rcases Nat.eq_zero_or_pos k with hk0 | hk0
        · rw [hk0, Nat.mul_zero] at hk
          omega
        · calc n = n * 1 := by ring
            _ ≤ n * k := Nat.mul_le_mul_left _ hk0
            _ = (b :: bt).length := hk.symm
      have hchunk : ((b :: bt).take n).length = n := by
        rw [List.length_take]
        omega
      rw [flatLoop_cons, List.flatMap_cons]
      have hv : bitsToNat ((b :: bt).take n) < 2 ^ n := by
        have := bitsToNat_lt ((b :: bt).take n)
        rwa [hchunk] at this
      have hhead : natToBitsN n (Lemma.extract_lsbs
          (Lemma.set_lsbs c (bitsToNat ((b :: bt).take n)) n) n) = (b :: bt).take n := by
        rw [extract_lsbs_eq_mod, set_lsbs_mod, Nat.mod_eq_of_lt hv]
        have h6 := natToBitsN_bitsToNat ((b :: bt).take n)
        rwa [hchunk] at h6
      rw [hhead]
      have hsplit : (b :: bt).length = ((b :: bt).take n).length + ((b :: bt).length - n) := by
        omega
      rw [hsplit, hchunk]
      have happ := @List.take_append Bool ((b :: bt).take n)
        ((Lemma.flatLoop n cs ((b :: bt).drop n)).flatMap
          (fun c => natToBitsN n (Lemma.extract_lsbs c n))) ((b :: bt).length - n)
      rw [hchunk] at happ
      rw [happ]
      have hdroplen : ((b :: bt).drop n).length = (b :: bt).length - n := by simp
      have hrec : ((Lemma.flatLoop n cs ((b :: bt).drop n)).flatMap
          (fun c => natToBitsN n (Lemma.extract_lsbs c n))).take ((b :: bt).drop n).length
          = (b :: bt).drop n := by
        apply ih
        · rw [hdroplen]
          have hmul : (cs.length + 1) * n = cs.length * n + n := by ring
          simp only [List.length_cons] at h ⊢
          omega
        · rw [hdroplen]
          exact Nat.dvd_sub' hdvd (Dvd.intro 1 (by ring))
      rw [hdroplen] at hrec
      rw [hrec, List.take_append_drop]

/-! ## Claim C3: pixel codec round trip -/

/-- C3 counterexample: a 3×2 RGB image (capacity `54 ≥ 40` bits),
message `b'\x01'`, `num_lsb = 3`.  The total embedded bit count is
`32 + 8 = 40`, not a multiple of 3; the embedder parses the final 1-bit
segment with `int(segment, 2)`, which right-aligns it in the unit's low
3 bits, while the decoder reads the 3-bit group left-aligned — the
message's final bit is lost and the round trip returns `b'\x00'`. -/
theorem c3_counterexample :
    List.length [(1 : Nat)] * 8 + 32 ≤ 3 * 2 * 3 * 3 ∧
    (Lemma.hide_message_in_image
        ⟨3, 2, 3, [[0, 0, 0], [0, 0, 0], [0, 0, 0], [0, 0, 0], [0, 0, 0], [0, 0, 0]]⟩
        [1] 3 false).map
      (fun i => Lemma.recover_message_from_image i 3) = Except.ok [0] ∧
    ([(0 : Nat)] ≠ [1]) :=
  ⟨by norm_num, rfl, by simp⟩

/-- C3 amended: the pixel codec round-trips whenever `num_lsb` divides
the total embedded bit count `32 + 8 * len(message)` (so every written
group is full — in particular for `num_lsb ∈ {1, 2, 4}` always); when it
does not divide it, the embedder right-aligns the final partial group
while the decoder assumes left alignment, and the message's final bits
are corrupted (see the counterexample). -/
theorem c3_amended (img : Lemma.Img) (message : List Nat) (num_lsb : Nat)
    (hn1 : 1 ≤ num_lsb)
    (hpix : img.pixels.length = img.width * img.height)
    (hchan : ∀ p ∈ img.pixels, p.length = img.channels)
    (hmsg : ∀ b ∈ message, b < 256)
    (hlen32 : message.length < 2 ^ 32)
    (hdvd : num_lsb ∣ (message.length * 8 + 32))
    (hcap : message.length * 8 + 32 ≤ Lemma.max_bits_to_hide img num_lsb) :
    (Lemma.hide_message_in_image img message num_lsb false).map
      (fun i => Lemma.recover_message_from_image i num_lsb) = Except.ok message := by
  have hok : Lemma.hide_message_in_image img message num_lsb false =
      Except.ok { img with pixels := (Lemma.hidePixels num_lsb img.pixels
        (natToBitsN 32 message.length ++ bytesToBits message)) } := by
    unfold Lemma.hide_message_in_image
    rw [if_neg (by
      intro hcon
      rcases hcon with ⟨_, hlt⟩
      omega)]
  rw [hok]
  show Except.ok (Lemma.recover_message_from_image _ num_lsb) = Except.ok message
  congr 1
  unfold Lemma.recover_message_from_image
  dsimp only
  set mbits := natToBitsN 32 message.length ++ bytesToBits message with hmbits
  have hmlen : mbits.length = 32 + message.length * 8 := by
    rw [hmbits]
    simp [natToBitsN_length, bytesToBits_length]
  have hunits : img.pixels.flatten.length = img.width * img.height * img.channels := by
    rw [flatten_length_const img.pixels img.channels hchan, hpix]
  have hcapflat : mbits.length ≤ img.pixels.flatten.length * num_lsb := by
    rw [hmlen, hunits]
    unfold Lemma.max_bits_to_hide at hcap
    omega
  have hdvd' : num_lsb ∣ mbits.length := by
    rw [hmlen]
    have : 32 + message.length * 8 = message.length * 8 + 32 := by ring
    rw [this]
    exact hdvd
  have hstream : ((Lemma.hidePixels num_lsb img.pixels mbits).flatMap
        (fun p => p.flatMap (fun c => natToBitsN num_lsb (Lemma.extract_lsbs c num_lsb))))
      = (Lemma.flatLoop num_lsb img.pixels.flatten mbits).flatMap
        (fun c => natToBitsN num_lsb (Lemma.extract_lsbs c num_lsb)) := by
    rw [flatMap_inner, hidePixels_flatten]
  rw [hstream]
  set R := (Lemma.flatLoop num_lsb img.pixels.flatten mbits).flatMap
    (fun c => natToBitsN num_lsb (Lemma.extract_lsbs c num_lsb)) with hR
  have hmain : R.take mbits.length = mbits :=
    flatLoop_extract_stream num_lsb hn1 img.pixels.flatten mbits hcapflat hdvd'
  have h32 : R.take 32 = natToBitsN 32 message.length := by
    have ht : R.take 32 = (R.take mbits.length).take 32 := by
      rw [List.take_take]
      congr 1
      rw [hmlen]
      omega
    rw [ht, hmain, hmbits, List.take_left' (natToBitsN_length 32 message.length)]
  have hL : bitsToNat (R.take 32) = message.length := by
    rw [h32, bitsToNat_natToBitsN, Nat.mod_eq_of_lt hlen32]
  rw [hL]
  have hpay : (R.drop 32).take (message.length * 8) = bytesToBits message := by
    have hd : (R.take mbits.length).drop 32 = (R.drop 32).take (mbits.length - 32) := by
      rw [List.drop_take]
    rw [hmain] at hd
    have hsub : mbits.length - 32 = message.length * 8 := by omega
    rw [hsub] at hd
    rw [← hd, hmbits, List.drop_left' (natToBitsN_length 32 message.length)]
  rw [hpay, Lemma.bitsFullChunksToBytes_bytesToBits message hmsg]

/-- Witness for C3 amended: a 2×5 grayscale image, message `b'\x07'`,
`num_lsb = 4` (40 bits total, divisible by 4). -/
theorem c3_amended_witness :
    (1 ≤ 4 ∧
      (Lemma.Img.mk 2 5 1 (List.replicate 10 [0])).pixels.length = 2 * 5 ∧
      (∀ p ∈ (Lemma.Img.mk 2 5 1 (List.replicate 10 [0])).pixels, p.length = 1) ∧
      (∀ b ∈ [(7 : Nat)], b < 256) ∧
      List.length [(7 : Nat)] < 2 ^ 32 ∧
      4 ∣ (List.length [(7 : Nat)] * 8 + 32) ∧
      List.length [(7 : Nat)] * 8 + 32 ≤
        Lemma.max_bits_to_hide (Lemma.Img.mk 2 5 1 (List.replicate 10 [0])) 4) ∧
    (Lemma.hide_message_in_image (Lemma.Img.mk 2 5 1 (List.replicate 10 [0])) [7] 4 false).map
      (fun i => Lemma.recover_message_from_image i 4) = Except.ok [7] := by
  refine ⟨⟨by norm_num, by simp, ?_, ?_, by norm_num, by norm_num, ?_⟩, ?_⟩
  · intro p hp
    rw [List.eq_of_mem_replicate hp]
    rfl
  · intro b hb
    simp at hb
    omega
  · show 1 * 8 + 32 ≤ 2 * 5 * 1 * 4
    norm_num
  · exact c3_amended (Lemma.Img.mk 2 5 1 (List.replicate 10 [0])) [7] 4 (by norm_num)
      (by simp) (fun p hp => by rw [List.eq_of_mem_replicate hp]; rfl)
      (fun b hb => by simp at hb; omega) (by norm_num) (by norm_num)
      (by show 1 * 8 + 32 ≤ 2 * 5 * 1 * 4; norm_num)

/-! ## Claim C5: the LSB distribution detector -/

/-- C5 counterexample: four units with low-2-bit values `0, 1, 2, 3`
(one each) at `num_lsb = 2`.  Under the claim's reading
(`total_units = 4`, expectation `1`, threshold `0.4`) every count is
exact and the detector would return `False`; the code computes
`total_bits = 4 * 2 = 8`, expectation `8 // 4 = 2`, threshold `0.8`,
every count deviates by `1 > 0.8`, and returns `True`. -/
theorem c5_counterexample :
    Sierra.is_lsb_steganography [0, 1, 2, 3] 2 = true ∧
    Sierra.is_lsb_steganography_claim [0, 1, 2, 3] 2 = false :=
  ⟨rfl, rfl⟩

/-- C5 amended: the detector returns `True` iff the number of distinct
low-bit values differs from `2 ^ num_lsb`, or some occurring value's
count deviates from `total_bits / 2 ^ num_lsb` by more than 10% of
`total_bits`, where `total_bits = total_units * num_lsb` (the code uses
`pixels.size * num_lsb`, not the unit count, as the reference quantity). -/
theorem c5_amended (pixels : List Nat) (num_lsb : Nat) :
    Sierra.is_lsb_steganography pixels num_lsb = true ↔
      ((pixels.map (fun p => p % 2 ^ num_lsb)).toFinset.card ≠ 2 ^ num_lsb ∨
        ∃ v ∈ pixels.map (fun p => p % 2 ^ num_lsb),
          pixels.length * num_lsb <
            10 * Sierra.natDist ((pixels.map (fun p => p % 2 ^ num_lsb)).count v)
              (pixels.length * num_lsb / 2 ^ num_lsb)) := by
  have hmask : pixels.map (fun p => p &&& (2 ^ num_lsb - 1)) =
      pixels.map (fun p => p % 2 ^ num_lsb) :=
    List.map_congr_left (fun x _ => Nat.and_pow_two_sub_one_eq_mod x num_lsb)
  unfold Sierra.is_lsb_steganography
  dsimp only
  rw [hmask, List.card_toFinset]
  split_ifs with h1 h2
  · simp only [true_iff]
    exact Or.inl h1
  · simp only [true_iff]
    rw [List.any_eq_true] at h2
    obtain ⟨v, hv, hp⟩ := h2
    exact Or.inr ⟨v, List.mem_dedup.mp hv, of_decide_eq_true hp⟩
  · simp only [Bool.false_eq_true, false_iff]
    push_neg at h1
    intro hcon
    rcases hcon with hleft | ⟨v, hv, hlt⟩
    · exact hleft h1
    · apply h2
      rw [List.any_eq_true]
      exact ⟨v, List.mem_dedup.mpr hv, decide_eq_true hlt⟩

/-! ## Claims C6 and C7: RS analysis -/

theorem xor_one_ne (v : Nat) : v ≠ Sierra.flipping_mask v 1 := by
  unfold Sierra.flipping_mask
  intro h
  have hbit := congrArg (fun x => x.testBit 0) h
  simp only [Nat.testBit_xor] at hbit
  revert hbit
  cases v.testBit 0 <;> simp [Nat.testBit_one_zero]

theorem rs_countP_eq_zero (cells : List Nat) :
    cells.countP (fun v => decide (v = Sierra.flipping_mask v 1)) = 0 := by
  rw [List.countP_eq_zero]
  intro a _
  simp only [decide_eq_true_eq]
  exact xor_one_ne a

theorem rs_countP_ne_length (cells : List Nat) :
    cells.countP (fun v => decide (v ≠ Sierra.flipping_mask v 1)) = cells.length := by
  rw [List.countP_eq_length]
  intro a _
  simp only [ne_eq, decide_not, Bool.not_eq_eq_eq_not, Bool.not_true, decide_eq_false_iff_not]
  exact xor_one_ne a

theorem rs_inner_fold (pixels : List (List (List Nat))) (x : Nat) (c4 : Nat) :
    ∀ (ys : List Nat) (acc : Nat × Nat),
      (∀ y ∈ ys, (Sierra.blockCells pixels x y).length = c4) →
      ys.foldl (fun acc2 y =>
        (acc2.1 + (Sierra.blockCells pixels x y).countP
            (fun v => decide (v = Sierra.flipping_mask v 1)),
         acc2.2 + (Sierra.blockCells pixels x y).countP
            (fun v => decide (v ≠ Sierra.flipping_mask v 1)))) acc
        = (acc.1, acc.2 + ys.length * c4) := by
  intro ys
  induction ys with
  | nil => intro acc _; simp
  | cons y yt ih =>
    intro acc h
    simp only [List.foldl_cons]
    rw [ih _ (fun z hz => h z (by simp [hz]))]
    simp only [rs_countP_eq_zero, rs_countP_ne_length, h y (by simp), List.length_cons,
      Prod.mk.injEq]
    exact ⟨by omega, by ring⟩

theorem rs_outer_fold (pixels : List (List (List Nat))) (ylen c4 : Nat) :
    ∀ (xs : List Nat) (acc : Nat × Nat),
      (∀ x ∈ xs, ∀ y ∈ List.range ylen, (Sierra.blockCells pixels x y).length = c4) →
      xs.foldl (fun acc x => (List.range ylen).foldl (fun acc2 y =>
        (acc2.1 + (Sierra.blockCells pixels x y).countP
            (fun v => decide (v = Sierra.flipping_mask v 1)),
         acc2.2 + (Sierra.blockCells pixels x y).countP
            (fun v => decide (v ≠ Sierra.flipping_mask v 1)))) acc) acc
        = (acc.1, acc.2 + xs.length * (ylen * c4)) := by
  intro xs
  induction xs with
  | nil => intro acc _; simp
  | cons x xt ih =>
    intro acc h
    simp only [List.foldl_cons]
    rw [rs_inner_fold pixels x c4 (List.range ylen) acc (h x (by simp)),
      ih _ (fun z hz => h z (by simp [hz]))]
    simp only [List.length_range, List.length_cons, Prod.mk.injEq]
    exact ⟨trivial, by ring⟩

theorem blockCells_length (pixels : List (List (List Nat))) (cols channels x y : Nat)
    (hrows : ∀ row ∈ pixels, row.length = cols)
    (hcells : ∀ row ∈ pixels, ∀ p ∈ row, p.length = channels)
    (hx : x + 1 < pixels.length) (hy : y + 1 < cols) :
    (Sierra.blockCells pixels x y).length = 4 * channels := by
  unfold Sierra.blockCells
  rw [flatMap_length_const _ _ (2 * channels) ?_]
  · have h2 : ((pixels.drop x).take 2).length = 2 := by
      simp only [List.length_take, List.length_drop]
      omega
    rw [h2]
    ring
  · intro row hrow
    have hrowmem : row ∈ pixels := List.mem_of_mem_drop (List.mem_of_mem_take hrow)
    rw [flatMap_length_const _ _ channels
      (fun cell hcell => hcells row hrowmem cell
        (List.mem_of_mem_drop (List.mem_of_mem_take hcell)))]
    have h2 : ((row.drop y).take 2).length = 2 := by
      simp only [List.length_take, List.length_drop, hrows row hrowmem]
      omega
    rw [h2]

theorem calculate_rs_eq (pixels : List (List (List Nat))) (cols channels : Nat)
    (hrows : ∀ row ∈ pixels, row.length = cols)
    (hcells : ∀ row ∈ pixels, ∀ p ∈ row, p.length = channels) :
    Sierra.calculate_rs pixels =
      (0, (pixels.length - 1) * ((cols - 1) * (4 * channels))) := by
  unfold Sierra.calculate_rs
  cases pixels with
  | nil => simp
  | cons r0 rest =>
    have hhead : ((r0 :: rest).headD []).length = cols := hrows r0 (by simp)
    rw [hhead]
    rw [rs_outer_fold (r0 :: rest) (cols - 1) (4 * channels)
      (List.range ((r0 :: rest).length - 1)) (0, 0) ?_]
    · simp [List.length_range]
    · intro x hx y hy
      simp only [List.mem_range] at hx hy
      exact blockCells_length (r0 :: rest) cols channels x y hrows hcells
        (by omega) (by omega)

theorem calculate_rs_fst_inner (pixels : List (List (List Nat))) (x : Nat) :
    ∀ (ys : List Nat) (acc : Nat × Nat),
      (ys.foldl (fun acc2 y =>
        (acc2.1 + (Sierra.blockCells pixels x y).countP
            (fun v => decide (v = Sierra.flipping_mask v 1)),
         acc2.2 + (Sierra.blockCells pixels x y).countP
            (fun v => decide (v ≠ Sierra.flipping_mask v 1)))) acc).1 = acc.1 := by
  intro ys
  induction ys with
  | nil => intro acc; rfl
  | cons y yt ih =>
    intro acc
    simp only [List.foldl_cons]
    rw [ih]
    simp [rs_countP_eq_zero]

theorem calculate_rs_fst_outer (pixels : List (List (List Nat))) (ylen : Nat) :
    ∀ (xs : List Nat) (acc : Nat × Nat),
      (xs.foldl (fun acc x => (List.range ylen).foldl (fun acc2 y =>
        (acc2.1 + (Sierra.blockCells pixels x y).countP
            (fun v => decide (v = Sierra.flipping_mask v 1)),
         acc2.2 + (Sierra.blockCells pixels x y).countP
            (fun v => decide (v ≠ Sierra.flipping_mask v 1)))) acc) acc).1 = acc.1 := by
  intro xs
  induction xs with
  | nil => intro acc; rfl
  | cons x xt ih =>
    intro acc
    simp only [List.foldl_cons]
    rw [ih]
    exact calculate_rs_fst_inner pixels x (List.range ylen) acc

theorem calculate_rs_fst (pixels : List (List (List Nat))) :
    (Sierra.calculate_rs pixels).1 = 0 := by
  unfold Sierra.calculate_rs
  exact calculate_rs_fst_outer pixels ((pixels.headD []).length - 1)
    (List.range (pixels.length - 1)) (0, 0)

theorem rs_analysis_zero (pixels : List (List (List Nat))) :
    Sierra.rs_analysis pixels = 0 := by
  unfold Sierra.rs_analysis
  dsimp only
  have h1 := calculate_rs_fst pixels
  by_cases h : (Sierra.calculate_rs pixels).1 + (Sierra.calculate_rs pixels).2 = 0
  · rw [if_pos h]
  · rw [if_neg h, h1]
    simp

/-- C7: `Sierra.rs_analysis` returns exactly `0` on every input: every
element XORed with mask `1` differs from the original, so the regular
count is always `0` and the returned ratio is `0` whether or not any
2×2 windows exist. -/
theorem c7_rs_analysis_always_zero (pixels : List (List (List Nat))) :
    Sierra.rs_analysis pixels = 0 :=
  rs_analysis_zero pixels

/-- C6 counterexample: on a 3×2 grayscale image of zeros the code
accumulates `regular + singular = 8` element-wise comparisons from two
overlapping 2×2 windows, while a partition into non-overlapping 2×2
blocks has exactly `1` block — so the code neither partitions the
carrier into non-overlapping blocks nor classifies whole blocks (8
classifications cannot come from 1 block, nor even from its 4 cells). -/
theorem c6_counterexample :
    Sierra.calculate_rs [[[0], [0]], [[0], [0]], [[0], [0]]] = (0, 8) ∧
    Sierra.numDisjointBlocks [[[0], [0]], [[0], [0]], [[0], [0]]] = 1 ∧
    (0 + 8 : Nat) ≠ 1 ∧ ¬ ((0 + 8 : Nat) ≤ 4 * 1) :=
  ⟨rfl, rfl, by norm_num, by norm_num⟩

/-- C6 amended: `rs_analysis` slides a 2×2 window with stride 1 over all
`(rows - 1) * (cols - 1)` positions (overlapping, not a partition),
accumulates element-wise equality counts into `regular` and inequality
counts into `singular` (so `regular = 0` and
`singular = (rows - 1) * (cols - 1) * 4 * channels` on a rectangular
image), and returns `regular / (regular + singular)`, a value in
`[0, 1]` that is `0` when the sum is `0`. -/
theorem c6_amended (pixels : List (List (List Nat))) (cols channels : Nat)
    (hrows : ∀ row ∈ pixels, row.length = cols)
    (hcells : ∀ row ∈ pixels, ∀ p ∈ row, p.length = channels) :
    Sierra.calculate_rs pixels =
      (0, (pixels.length - 1) * ((cols - 1) * (4 * channels))) ∧
    (0 : ℚ) ≤ Sierra.rs_analysis pixels ∧ Sierra.rs_analysis pixels ≤ 1 := by
  refine ⟨calculate_rs_eq pixels cols channels hrows hcells, ?_, ?_⟩
  · rw [rs_analysis_zero]
  · rw [rs_analysis_zero]
    norm_num

/-- Witness for C6 amended on the 3×2 grayscale image of zeros. -/
theorem c6_amended_witness :
    ((∀ row ∈ [[[(0 : Nat)], [0]], [[0], [0]], [[0], [0]]], row.length = 2) ∧
      (∀ row ∈ [[[(0 : Nat)], [0]], [[0], [0]], [[0], [0]]], ∀ p ∈ row, p.length = 1)) ∧
    (Sierra.calculate_rs [[[0], [0]], [[0], [0]], [[0], [0]]] =
        (0, (List.length [[[(0 : Nat)], [0]], [[0], [0]], [[0], [0]]] - 1) * ((2 - 1) * (4 * 1))) ∧
      (0 : ℚ) ≤ Sierra.rs_analysis [[[0], [0]], [[0], [0]], [[0], [0]]] ∧
      Sierra.rs_analysis [[[0], [0]], [[0], [0]], [[0], [0]]] ≤ 1) := by
  refine ⟨⟨?_, ?_⟩, ?_⟩
  · intro row hrow
    fin_cases hrow <;> rfl
  · intro row hrow
    fin_cases hrow <;> (intro p hp; fin_cases hp <;> rfl)
  · exact c6_amended [[[0], [0]], [[0], [0]], [[0], [0]]] 2 1
      (by intro row hrow; fin_cases hrow <;> rfl)
      (by intro row hrow; fin_cases hrow <;> (intro p hp; fin_cases hp <;> rfl))

end Stegano
